import Mathlib

/- Verification of the smart-audit-assistant scan orchestration and
analytics pipeline (the Next.js API routes of the web dashboard and the
scan route in src/unnamed/part_003).  The JavaScript functions are embedded
shallowly: rational numbers stand for the JavaScript numbers that arise
here (severity weights, confidences, rounded means), strings are modelled
through their character lists where the library functions do not reduce,
and the per-scan status files, the report cache and the history ledger are
modelled as keyed stores threaded through a state record. -/

namespace SpoonAudit

/-- JavaScript Math.round: rounds half toward positive infinity. -/
def jsRound (q : ℚ) : ℤ := ⌊q + 1/2⌋

/-- JavaScript String.prototype.includes: substring containment, modelled on
the character lists of the two strings. -/
def jsIncludes (hay needle : String) : Prop := needle.data <:+: hay.data

instance (hay needle : String) : Decidable (jsIncludes hay needle) := by
  unfold jsIncludes
  infer_instance

/-- JavaScript String.prototype.endsWith, modelled on character lists. -/
def jsEndsWith (s tail : String) : Prop := tail.data <:+ s.data

instance (s tail : String) : Decidable (jsEndsWith s tail) := by
  unfold jsEndsWith
  infer_instance

/-- One reported issue, with the fields the pipeline reads: `severity`,
`title`, optional `description`, optional `confidence` (`none` models an
absent JSON field). -/
structure Finding where
  severity : String
  title : String
  description : Option String
  confidence : Option ℚ
deriving DecidableEq, Repr

/-- The five canonical severity values, most severe first, as listed in the
`weights` table of `calculateRiskScore`. -/
def canonicalSeverities : List String :=
  ["critical", "high", "medium", "low", "info"]

/-- `weights[finding.severity as keyof typeof weights] || 1` from
`calculateRiskScore`: the table weight for a canonical severity, and the
JavaScript `undefined || 1` fallback for any other string. -/
def weightOf (s : String) : ℕ :=
  if s = "critical" then 10
  else if s = "high" then 7
  else if s = "medium" then 4
  else if s = "low" then 2
  else if s = "info" then 1
  else 1

/-- `finding.confidence || 0.8`: JavaScript `||` substitutes 0.8 both when
the field is absent (undefined is falsy) and when it equals 0 (0 is falsy). -/
def effConfidence (f : Finding) : ℚ :=
  match f.confidence with
  | none => 0.8
  | some c => if c = 0 then 0.8 else c

/-- One finding's contribution `weight * confidence` to the accumulated
score of `calculateRiskScore`. -/
def findingContribution (f : Finding) : ℚ :=
  (weightOf f.severity : ℚ) * effConfidence f

/-- The scoring loop of `calculateRiskScore` applied to a finding list
(`allFindings = [...report.static, ...report.ai]`): accumulate
`weight * confidence` over the list, then `Math.min(Math.round(score), 100)`. -/
def scoreFindings (findings : List Finding) : ℤ :=
  min (jsRound (findings.foldl (fun s f => s + findingContribution f) 0)) 100

/-- The `metadata` object of a scan report. -/
structure ScanMetadata where
  tools_used : List String
  ai_enabled : Bool
  total_findings : ℕ
  risk_score : ℤ
  gas_optimization_count : ℕ
deriving DecidableEq, Repr

/-- A scan report as assembled by `executeScanPipeline`. -/
structure ScanReport where
  id : String
  path : String
  timestamp : ℕ
  duration : ℕ
  pipeline : String
  static : List Finding
  ai : List Finding
  metadata : ScanMetadata
deriving DecidableEq, Repr

/-- `calculateRiskScore(report)` from src/unnamed/part_003. -/
def calculateRiskScore (report : ScanReport) : ℤ :=
  scoreFindings (report.static ++ report.ai)

/-- The contribution as claim C1 words it: `weight(severity) * confidence`
with the 0.8 default applied only when the confidence is absent. -/
def claimContribution (f : Finding) : ℚ :=
  (weightOf f.severity : ℚ) * (f.confidence.getD 0.8)

/-- The risk score as claim C1 words it: rounded sum of the claimed
contributions, clamped above at 100. -/
def claimRiskScore (findings : List Finding) : ℤ :=
  min (jsRound ((findings.map claimContribution).sum)) 100

/-- The result extraction of `runStaticAnalysis`:
`return cliReport.static || []`.  The parsed findings are handed on as-is;
no severity value is validated or normalized on ingestion. -/
def runStaticAnalysisResult (cliStatic : Option (List Finding)) : List Finding :=
  cliStatic.getD []

/-- Rank of a canonical severity in the order info < low < medium < high <
critical (used to state monotonicity of the risk score). -/
def sevRank (s : String) : ℕ :=
  if s = "info" then 0
  else if s = "low" then 1
  else if s = "medium" then 2
  else if s = "high" then 3
  else 4

/-- `countGasOptimizations` keyword list. -/
def gasKeywords : List String := ["gas", "optimization", "efficiency", "cost"]

/-- ASCII lowercasing of a character list (the JavaScript `toLowerCase` on
the ASCII titles and descriptions the tools emit). -/
def jsToLowerData (l : List Char) : List Char := l.map Char.toLower

/-- The text `${finding.title} ${finding.description || ''}` lowercased. -/
def gasFindingText (f : Finding) : List Char :=
  jsToLowerData (f.title ++ " " ++ f.description.getD "").data

/-- `countGasOptimizations` from src/unnamed/part_003. -/
def countGasOptimizations (report : ScanReport) : ℕ :=
  (report.static ++ report.ai).countP
    (fun f => gasKeywords.any (fun k => decide (k.data <:+: gasFindingText f)))

/-- A ledger entry summary as written by `saveToHistory`. -/
structure HistoryEntry where
  id : String
  path : String
  timestamp : ℕ
  duration : ℕ
  findings_count : ℕ
  risk_score : ℤ
  status : String
  pipeline : String
  ai_enabled : Bool
deriving DecidableEq, Repr

/-- The list update performed by `saveToHistory`: `history.unshift(entry)`
followed by `history.slice(0, 100)` when the length exceeds 100. -/
def saveToHistoryList (history : List HistoryEntry) (entry : HistoryEntry) :
    List HistoryEntry :=
  let h := entry :: history
  if 100 < h.length then h.take 100 else h

/-- The summary entry `saveToHistory` builds from a finished report; its
`status` field is the literal string `'completed'`. -/
def mkHistoryEntry (report : ScanReport) : HistoryEntry :=
  { id := report.id
    path := report.path
    timestamp := report.timestamp
    duration := report.duration
    findings_count := report.metadata.total_findings
    risk_score := report.metadata.risk_score
    status := "completed"
    pipeline := report.pipeline
    ai_enabled := report.metadata.ai_enabled }

/-- A node of the filesystem as seen by `fs.stat` / `fs.readdir`: a regular
file, a directory with its entry names, something else, or absent
(`fs.stat` throws, caught as "File or directory not found"). -/
inductive FsNode : Type
  | file : FsNode
  | dir (entries : List String) : FsNode
  | other : FsNode
  | missing : FsNode
deriving DecidableEq, Repr

/-- `validateContractPath` from src/unnamed/part_003, applied to the
already-resolved path (`path.resolve` is the Node runtime's
canonicalization, passed in by the caller).  The trusted-root check is
JavaScript substring containment `resolvedPath.includes(process.cwd())`;
then the filesystem checks follow: files must end in `.sol`, directories
must list at least one `.sol` entry. -/
def validateContractPath (fsStat : String → FsNode) (cwd resolvedPath : String) :
    Except String String :=
  if jsIncludes resolvedPath cwd then
    match fsStat resolvedPath with
    | .file =>
      if jsEndsWith resolvedPath ".sol" then .ok resolvedPath
      else .error "Only .sol files are supported"
    | .dir entries =>
      if entries.any (fun f => decide (jsEndsWith f ".sol")) then .ok resolvedPath
      else .error "No .sol files found in directory"
    | .other => .error "Path must be a file or directory"
    | .missing => .error "File or directory not found"
  else .error "Invalid file path - outside project directory"

/-- The property the specification claims of the path check: the resolved
path is the trusted root itself or lies strictly below it. -/
def isDescendantOf (p root : String) : Prop :=
  p = root ∨ (root ++ "/").data <+: p.data

instance (p root : String) : Decidable (isDescendantOf p root) := by
  unfold isDescendantOf
  infer_instance

/-- A scan status record (the `{status, message}` part of the JSON written
by `updateScanStatus`; the wall-clock timestamp field is not modelled). -/
structure StatusRecord where
  status : String
  message : String
deriving DecidableEq, Repr

/-- Keyed upsert into an association list: the model of a full-record
replacement write of a per-key JSON file. -/
def upsert {β : Type} (l : List (String × β)) (k : String) (v : β) :
    List (String × β) :=
  match l with
  | [] => [(k, v)]
  | p :: t => if p.1 = k then (k, v) :: t else p :: upsert t k v

/-- The durable stores the orchestrator writes: the per-scan status files,
the history ledger document and the per-scan report cache files. -/
structure SysState where
  statusStore : List (String × StatusRecord)
  history : List HistoryEntry
  cache : List (String × ScanReport)
deriving DecidableEq, Repr

/-- `updateScanStatus(scanId, status, message)`: full-record replacement
write of `data/status/{scanId}.json`. -/
def updateScanStatus (st : SysState) (scanId status message : String) : SysState :=
  { st with statusStore := upsert st.statusStore scanId ⟨status, message⟩ }

/-- Read a scan's status record back from the store. -/
def lookupStatus (st : SysState) (scanId : String) : Option StatusRecord :=
  (st.statusStore.find? (fun p => p.1 = scanId)).map (fun p => p.2)

/-- The parsed request body of `POST /api/scan`; `none` fields model absent
JSON fields, replaced by the destructuring defaults in `POST`. -/
structure ScanRequest where
  contractPath : String
  includeAI : Option Bool
  severity : Option String
  tools : Option (List String)
  pipeline : Option String
deriving DecidableEq, Repr

/-- `executeScanPipeline` from src/unnamed/part_003.  The external
subprocess results are inputs: `staticOutcome` is the outcome of
`runStaticAnalysis` (its thrown message on failure), and `aiFindings` the
result of `runAIAnalysis` (which returns `[]` on any failure and never
throws).  A static failure is rethrown wrapped in
"Pipeline execution failed: ...". -/
def executeScanPipeline (st : SysState) (scanId contractPath : String)
    (includeAI : Bool) (tools : List String) (pipeline : String)
    (startTime : ℕ)
    (staticOutcome : Except String (List Finding)) (aiFindings : List Finding) :
    SysState × Except String ScanReport :=
  let st1 := updateScanStatus st scanId "running" "Running static analysis..."
  match staticOutcome with
  | .error e => (st1, .error ("Pipeline execution failed: " ++ e))
  | .ok staticResults =>
    let st2 :=
      if includeAI then updateScanStatus st1 scanId "running" "Running AI analysis..."
      else st1
    let aiResults := if includeAI then aiFindings else []
    let st3 := updateScanStatus st2 scanId "running" "Processing results..."
    let report : ScanReport :=
      { id := scanId
        path := contractPath
        timestamp := startTime / 1000
        duration := 0
        pipeline := pipeline
        static := staticResults
        ai := aiResults
        metadata :=
          { tools_used := tools
            ai_enabled := includeAI
            total_findings := staticResults.length + aiResults.length
            risk_score := 0
            gas_optimization_count := 0 } }
    let report2 :=
      { report with metadata :=
          { report.metadata with
              gas_optimization_count := countGasOptimizations report } }
    (st3, .ok report2)

/-- The HTTP responses `POST /api/scan` can produce. -/
inductive PostResponse : Type
  | ok (report : ScanReport)
  | badRequest (error code : String)
  | serverError (error code scanId : String)
deriving DecidableEq, Repr

/-- The `POST` handler of src/unnamed/part_003.  `scanId` is the uuid drawn
at entry, `body` the outcome of `request.json()` (an exception there is
caught by the same catch block), `resolve` the Node `path.resolve`
canonicalization, and `startTime`/`endTime` the two `Date.now()` readings.
On success the report is saved to history and cache and the status set to
completed; on any thrown error the status is set to failed with the error
message and a 500 response carrying the scan id is returned. -/
def postScan (st : SysState) (scanId : String) (startTime endTime : ℕ)
    (body : Except String ScanRequest)
    (fsStat : String → FsNode) (cwd : String) (resolve : String → String)
    (staticOutcome : Except String (List Finding)) (aiFindings : List Finding) :
    SysState × PostResponse :=
  match body with
  | .error msg =>
    (updateScanStatus st scanId "failed" msg, .serverError msg "SCAN_FAILED" scanId)
  | .ok req =>
    if req.contractPath = "" then
      (st, .badRequest "Contract path is required" "MISSING_PATH")
    else
      match validateContractPath fsStat cwd (resolve req.contractPath) with
      | .error e => (st, .badRequest e "INVALID_PATH")
      | .ok resolvedPath =>
        let includeAI := req.includeAI.getD true
        let tools := req.tools.getD ["slither", "mythril", "solhint"]
        let pipeline := req.pipeline.getD "thorough"
        let st1 := updateScanStatus st scanId "running" "Initializing scan pipeline..."
        match executeScanPipeline st1 scanId resolvedPath includeAI tools pipeline
            startTime staticOutcome aiFindings with
        | (st2, .error e) =>
          (updateScanStatus st2 scanId "failed" e, .serverError e "SCAN_FAILED" scanId)
        | (st2, .ok report0) =>
          let report :=
            { report0 with
                duration := endTime - startTime
                metadata :=
                  { report0.metadata with risk_score := calculateRiskScore report0 } }
          let st3 :=
            { st2 with
                history := saveToHistoryList st2.history (mkHistoryEntry report)
                cache := upsert st2.cache scanId report }
          let st4 := updateScanStatus st3 scanId "completed" "Scan completed successfully"
          (st4, .ok report)

/-- Comparison used to model a JavaScript stable `Array.prototype.sort`
with a numeric-key comparator: element-key order first, original position
as the tie-break (ES2019 requires the sort to be stable, which is the same
as sorting the (index, element) pairs by (key, index)). -/
def jsSortLe {α : Type} (key : α → ℤ) (p q : ℕ × α) : Bool :=
  decide (key p.2 < key q.2 ∨ (key p.2 = key q.2 ∧ p.1 ≤ q.1))

/-- A JavaScript stable sort ascending by `key`. -/
def jsStableSortBy {α : Type} (key : α → ℤ) (l : List α) : List α :=
  (l.enum.mergeSort (jsSortLe key)).map Prod.snd

/-- One step of the JavaScript accumulate-into-an-object pattern
(`if (!obj[k]) obj[k] = init(a); update obj[k] with a`): an association
list in key-insertion order, updated in place. -/
def jsGroupStep {κ α β : Type} [DecidableEq κ] (keyOf : α → κ) (init : α → β)
    (upd : β → α → β) (g : List (κ × β)) (a : α) : List (κ × β) :=
  if g.any (fun p => p.1 = keyOf a) then
    g.map (fun p => if p.1 = keyOf a then (p.1, upd p.2 a) else p)
  else g ++ [(keyOf a, init a)]

/-- Folding a whole list into a JavaScript object (`Object.entries` order is
key-insertion order for the string keys used here). -/
def jsGroupFold {κ α β : Type} [DecidableEq κ] (keyOf : α → κ) (init : α → β)
    (upd : β → α → β) (l : List α) : List (κ × β) :=
  l.foldl (jsGroupStep keyOf init upd) []

/-- The keys of such an object in insertion order: first occurrences. -/
def insKeys {κ : Type} [DecidableEq κ] (l : List κ) : List κ :=
  l.foldl (fun acc k => if k ∈ acc then acc else acc ++ [k]) []

/-- The value a group fold assigns to a key whose occurrence list is `l`
(meaningful only for nonempty `l`). -/
def groupVal {α β : Type} [Inhabited β] (init : α → β) (upd : β → α → β) :
    List α → β
  | [] => default
  | a :: t => t.foldl upd (init a)

/-- The per-date accumulator of `calculateScanTrends` (the fields of the
`trends[date]` object apart from the date itself). -/
structure TrendAcc where
  scans : ℕ
  findings : ℕ
  riskScores : List ℤ
deriving DecidableEq, Repr, Inhabited

/-- A fresh `trends[date]` bucket after absorbing its first entry
(`scans++`, `findings += ...`, `riskScores.push(...)` on the zero bucket). -/
def trendInit (e : HistoryEntry) : TrendAcc :=
  ⟨1, e.findings_count, [e.risk_score]⟩

/-- Absorbing a further entry into an existing `trends[date]` bucket. -/
def trendUpd (t : TrendAcc) (e : HistoryEntry) : TrendAcc :=
  ⟨t.scans + 1, t.findings + e.findings_count, t.riskScores ++ [e.risk_score]⟩

/-- The UTC calendar-date bucket key of a ledger entry.
`new Date(scan.timestamp * 1000).toISOString().split('T')[0]` yields the
UTC date string; for the nonnegative second-precision timestamps written
here that string is in order-preserving bijection with the epoch day number
`timestamp / 86400`, which the embedding uses as the bucket key, so that
bucketing and date ordering are preserved exactly. -/
def dateKey (e : HistoryEntry) : ℕ := e.timestamp / 86400

/-- A finished `scanTrends` bucket. -/
structure Trend where
  date : ℕ
  scans : ℕ
  findings : ℕ
  avgRiskScore : ℤ
deriving DecidableEq, Repr

/-- The `.map(...)` step of `calculateScanTrends`: close a bucket by
replacing the risk-score list with its integer-rounded mean. -/
def finalizeTrend (p : ℕ × TrendAcc) : Trend :=
  { date := p.1
    scans := p.2.scans
    findings := p.2.findings
    avgRiskScore :=
      if 0 < p.2.riskScores.length then
        jsRound ((p.2.riskScores.sum : ℚ) / (p.2.riskScores.length : ℚ))
      else 0 }

/-- `calculateScanTrends` from the analytics route: bucket every history
entry by date, close the buckets, sort ascending by date
(`localeCompare` on ISO date strings is date order) and keep the last 30
(`slice(-30)`). -/
def calculateScanTrends (history : List HistoryEntry) : List Trend :=
  let sorted :=
    jsStableSortBy (fun t => (t.date : ℤ))
      ((jsGroupFold dateKey trendInit trendUpd history).map finalizeTrend)
  sorted.drop (sorted.length - 30)

instance : IsAntisymm Trend (fun a b => a.date < b.date) :=
  ⟨fun _ _ h1 h2 => absurd (h1.trans h2) (lt_irrefl _)⟩

/-- The ledger entries falling on day `d`. -/
def entriesOn (history : List HistoryEntry) (d : ℕ) : List HistoryEntry :=
  history.filter (fun e => dateKey e = d)

/-- The bucket for day `d` as the specification words it: scan count,
summed findings and integer-rounded mean risk score of that day's entries. -/
def specBucket (history : List HistoryEntry) (d : ℕ) : Trend :=
  { date := d
    scans := (entriesOn history d).length
    findings := ((entriesOn history d).map (fun e => e.findings_count)).sum
    avgRiskScore :=
      if 0 < (entriesOn history d).length then
        jsRound (((((entriesOn history d).map (fun e => e.risk_score)).sum : ℤ) : ℚ) /
          ((entriesOn history d).length : ℚ))
      else 0 }

/-- The trend series as claim C7 words it: one bucket per distinct date,
sorted ascending, truncated to the most recent 30. -/
def specScanTrends (history : List HistoryEntry) : List Trend :=
  let sortedDates := ((history.map dateKey).dedup).mergeSort (fun a b => decide (a ≤ b))
  (sortedDates.map (specBucket history)).drop (sortedDates.length - 30)

/-- The per-cluster accumulator of `calculateDetailedAnalytics`
(`vulnerabilities[key] = { count, severities }`). -/
structure ClusterAcc where
  count : ℕ
  severities : List String
deriving DecidableEq, Repr, Inhabited

/-- A fresh cluster after absorbing its first finding. -/
def clusterInit (f : Finding) : ClusterAcc := ⟨1, [f.severity]⟩

/-- `vulnerabilities[key].count++; vulnerabilities[key].severities.push(...)`. -/
def clusterUpd (c : ClusterAcc) (f : Finding) : ClusterAcc :=
  ⟨c.count + 1, c.severities ++ [f.severity]⟩

/-- Characters kept by the clustering regexp `[^a-z0-9]` (applied after
lowercasing). -/
def isKeyChar (c : Char) : Bool :=
  ('a' ≤ c && c ≤ 'z') || ('0' ≤ c && c ≤ '9')

/-- JavaScript `trim()` on the replaced text: after the regexp replacement
only `[a-z0-9 ]` characters remain, so trimming removes exactly the leading
and trailing spaces. -/
def trimSpaces (l : List Char) : List Char :=
  ((l.dropWhile (fun c => c = ' ')).reverse.dropWhile (fun c => c = ' ')).reverse

/-- The clustering key
`finding.title.toLowerCase().replace(/[^a-z0-9]/g, ' ').trim()`. -/
def normalizeKey (title : String) : String :=
  ⟨trimSpaces ((jsToLowerData title.data).map (fun c => if isKeyChar c then c else ' '))⟩

/-- JavaScript `split(' ')` on a single space: adjacent separators produce
empty words, and the empty string splits to one empty word. -/
def splitOnSpace : List Char → List (List Char)
  | [] => [[]]
  | c :: t =>
    if c = ' ' then [] :: splitOnSpace t
    else
      match splitOnSpace t with
      | [] => [[c]]
      | w :: ws => (c :: w) :: ws

/-- `word.charAt(0).toUpperCase() + word.slice(1)` (the empty word maps to
itself, as `charAt(0)` of an empty string is the empty string). -/
def capitalizeWord (w : List Char) : List Char :=
  match w with
  | [] => []
  | c :: t => Char.toUpper c :: t

/-- The display title of a cluster:
`key.split(' ').map(capitalize).join(' ')`. -/
def titleCase (key : String) : String :=
  ⟨List.intercalate [' '] ((splitOnSpace key.data).map capitalizeWord)⟩

/-- `getMostCommonSeverity` from the analytics route: count occurrences
into an object (insertion order is first-seen order), stable-sort the
entries descending by count, and return `sort(...)[0]?.[0] || 'medium'` —
the `|| 'medium'` fallback fires both when the list is empty (the indexing
yields undefined) and when the winning severity key is the falsy empty
string. -/
def getMostCommonSeverity (severities : List String) : String :=
  match jsStableSortBy (fun p : String × ℕ => -(p.2 : ℤ))
      (jsGroupFold (fun s : String => s) (fun _ => 1) (fun n _ => n + 1) severities) with
  | [] => "medium"
  | p :: _ => if p.1 = "" then "medium" else p.1

/-- One ranked entry of `topVulnerabilities`. -/
structure TopVuln where
  title : String
  count : ℕ
  avgSeverity : String
deriving DecidableEq, Repr

/-- The `.map(([title, data]) => ...)` step of `calculateDetailedAnalytics`. -/
def renderVuln (p : String × ClusterAcc) : TopVuln :=
  ⟨titleCase p.1, p.2.count, getMostCommonSeverity p.2.severities⟩

/-- `[...(report.static || []), ...(report.ai || [])]`. -/
def allFindingsOf (report : ScanReport) : List Finding := report.static ++ report.ai

/-- The result of `calculateDetailedAnalytics`. -/
structure DetailedAnalytics where
  severityDistribution : List (String × ℕ)
  topVulnerabilities : List TopVuln
deriving DecidableEq, Repr

/-- One iteration of the report loop of `calculateDetailedAnalytics`: read
the cached report for the entry's id (`none` models a missing or unreadable
cache file, i.e. the `catch { continue }` branch), then accumulate every
finding of the report into the severity distribution and the vulnerability
clusters. -/
def processScan (cache : String → Option ScanReport)
    (acc : List (String × ℕ) × List (String × ClusterAcc)) (scan : HistoryEntry) :
    List (String × ℕ) × List (String × ClusterAcc) :=
  match cache scan.id with
  | none => acc
  | some report =>
    (allFindingsOf report).foldl
      (fun a f =>
        (jsGroupStep (fun f0 : Finding => f0.severity) (fun _ => 1) (fun n _ => n + 1) a.1 f,
         jsGroupStep (fun f0 : Finding => normalizeKey f0.title) clusterInit clusterUpd a.2 f))
      acc

/-- `calculateDetailedAnalytics` from the analytics route: loop over
`history.slice(0, 50)`, then rank the clusters by descending count
(a stable sort) and keep the first 10. -/
def calculateDetailedAnalytics (cache : String → Option ScanReport)
    (history : List HistoryEntry) : DetailedAnalytics :=
  let acc := (history.take 50).foldl (processScan cache) ([], [])
  { severityDistribution := acc.1
    topVulnerabilities :=
      (jsStableSortBy (fun v => -(v.count : ℤ)) (acc.2.map renderVuln)).take 10 }

/-- The findings the detailed analytics pass actually reads, as claim C9
words it: the reports of the 50 most recent ledger entries whose cache
entry is present, flattened in order. -/
def loadedFindings (cache : String → Option ScanReport)
    (history : List HistoryEntry) : List Finding :=
  (((history.take 50).filterMap (fun scan => cache scan.id)).map allFindingsOf).flatten

/-- The detailed analytics as a pure aggregation over a finding list. -/
def detailedFromFindings (findings : List Finding) : DetailedAnalytics :=
  { severityDistribution :=
      jsGroupFold (fun f : Finding => f.severity) (fun _ => 1) (fun n _ => n + 1) findings
    topVulnerabilities :=
      (jsStableSortBy (fun v => -(v.count : ℤ))
        ((jsGroupFold (fun f : Finding => normalizeKey f.title) clusterInit clusterUpd
          findings).map renderVuln)).take 10 }

/-- The cluster of findings sharing normalized key `k`. -/
def clusterOf (findings : List Finding) (k : String) : List Finding :=
  findings.filter (fun f => normalizeKey f.title = k)

/-- `m` is a statistical mode of `l` and, among the values attaining the
maximal multiplicity, the one seen first. -/
def isFirstMode (l : List String) (m : String) : Prop :=
  m ∈ l ∧ (∀ s ∈ l, l.count s ≤ l.count m) ∧
    ∀ s ∈ l, l.count s = l.count m → l.indexOf m ≤ l.indexOf s

/-- Concrete report used to instantiate the orchestration theorems: the
report `executeScanPipeline` assembles for an empty finding set. -/
def demoReport0 : ScanReport :=
  { id := "id1"
    path := "/x.sol"
    timestamp := 0
    duration := 0
    pipeline := "thorough"
    static := []
    ai := []
    metadata :=
      { tools_used := ["slither", "mythril", "solhint"]
        ai_enabled := true
        total_findings := 0
        risk_score := 0
        gas_optimization_count := 0 } }

/-- The finalized form of `demoReport0` after the `POST` handler fills in
the duration and the computed risk score. -/
def demoReport : ScanReport :=
  { demoReport0 with
      duration := 5
      metadata := { demoReport0.metadata with risk_score := calculateRiskScore demoReport0 } }

/-- Cached report holding a single finding whose severity is the empty
string (reachable, since ingestion performs no severity validation). -/
def emptySevReport : ScanReport :=
  { id := "a"
    path := "/x.sol"
    timestamp := 0
    duration := 0
    pipeline := "thorough"
    static := [⟨"", "x", none, none⟩]
    ai := []
    metadata :=
      { tools_used := []
        ai_enabled := false
        total_findings := 1
        risk_score := 0
        gas_optimization_count := 0 } }

/-- Ledger entry pointing at `emptySevReport`. -/
def emptySevEntry : HistoryEntry :=
  { id := "a"
    path := "/x.sol"
    timestamp := 0
    duration := 0
    findings_count := 1
    risk_score := 0
    status := "completed"
    pipeline := "thorough"
    ai_enabled := false }

/- ------------------------------------------------------------------ -/
/- Theorems.                                                          -/
/- ------------------------------------------------------------------ -/

theorem foldl_add_eq_sum {α : Type} (g : α → ℚ) (l : List α) (a : ℚ) :
    l.foldl (fun s f => s + g f) a = a + (l.map g).sum := by
  induction l generalizing a with
  | nil => simp
  | cons x t ih => simp [ih (a + g x)]; ring

theorem scoreFindings_eq_sum (findings : List Finding) :
    scoreFindings findings =
      min (jsRound ((findings.map findingContribution).sum)) 100 := by
  unfold scoreFindings
  rw [foldl_add_eq_sum, zero_add]

theorem effConfidence_nonneg (f : Finding)
    (hconf : ∀ c, f.confidence = some c → 0 ≤ c) : 0 ≤ effConfidence f := by
  unfold effConfidence
  cases h : f.confidence with
  | none => norm_num
  | some c =>
    by_cases hc : c = 0
    · simp [hc]; norm_num
    · simp [hc]; exact hconf c h

theorem findingContribution_nonneg (f : Finding)
    (hconf : ∀ c, f.confidence = some c → 0 ≤ c) : 0 ≤ findingContribution f := by
  unfold findingContribution
  exact mul_nonneg (by positivity) (effConfidence_nonneg f hconf)

theorem jsRound_mono {a b : ℚ} (h : a ≤ b) : jsRound a ≤ jsRound b :=
  Int.floor_le_floor (by linarith)

/-- C1 counterexample: the claimed formula applies the 0.8 default only to
an absent confidence, but `finding.confidence || 0.8` also replaces a
present confidence of 0 (JavaScript falsiness), so on a single info finding
with confidence 0 the code returns 1 while the claimed formula gives 0. -/
theorem riskScore_confidence_zero_cex :
    scoreFindings [⟨"info", "t", none, some 0⟩] = 1 ∧
    claimRiskScore [⟨"info", "t", none, some 0⟩] = 0 := by
  have hw : weightOf "info" = 1 := by decide
  constructor
  · rw [scoreFindings_eq_sum]
    norm_num [findingContribution, effConfidence, hw, jsRound]
  · norm_num [claimRiskScore, claimContribution, hw, jsRound]

/-- C1 (amended): for findings with nonnegative confidences, the risk score
equals the rounded sum over findings of weight(severity) times confidence —
with the 0.8 default applied when confidence is absent or zero — clamped
above at 100; hence the score is an integer in [0, 100], and the score of
the empty list is 0. -/
theorem riskScore_formula_amended (findings : List Finding)
    (hconf : ∀ f ∈ findings, ∀ c, f.confidence = some c → 0 ≤ c) :
    scoreFindings findings =
      min (jsRound ((findings.map findingContribution).sum)) 100 ∧
    0 ≤ scoreFindings findings ∧ scoreFindings findings ≤ 100 ∧
    scoreFindings [] = 0 := by
  have hsum : 0 ≤ (findings.map findingContribution).sum := by
    apply List.sum_nonneg
    intro q hq
    obtain ⟨f, hf, rfl⟩ := List.mem_map.mp hq
    exact findingContribution_nonneg f (hconf f hf)
  refine ⟨scoreFindings_eq_sum findings, ?_, ?_, ?_⟩
  · rw [scoreFindings_eq_sum]
    apply le_min
    · exact Int.floor_nonneg.mpr (by linarith)
    · norm_num
  · rw [scoreFindings_eq_sum]
    exact min_le_right _ _
  · rw [scoreFindings_eq_sum]
    norm_num [jsRound]

/-- Witness for the amended C1 at a single high finding with confidence
one half. -/
theorem riskScore_formula_amended_witness :
    scoreFindings [⟨"high", "t", none, some (1/2)⟩] =
      min (jsRound (([⟨"high", "t", none, some (1/2)⟩] :
        List Finding).map findingContribution).sum) 100 ∧
    0 ≤ scoreFindings [⟨"high", "t", none, some (1/2)⟩] ∧
    scoreFindings [⟨"high", "t", none, some (1/2)⟩] ≤ 100 ∧
    scoreFindings [] = 0 :=
  riskScore_formula_amended [⟨"high", "t", none, some (1/2)⟩]
    (by
      intro f hf c hc
      simp only [List.mem_singleton] at hf
      subst hf
      simp only [Option.some.injEq] at hc
      subst hc
      norm_num)

/-- C5 counterexample: a finding with the noncanonical severity "banana"
is returned by the static-analysis ingestion unchanged and is then consumed
by the scoring loop, which silently scores it with the fallback weight 1
(so the score of that single finding is round(1 * 0.8) = 1, not a
rejection). -/
theorem severity_passthrough_cex :
    runStaticAnalysisResult (some [⟨"banana", "t", none, none⟩]) =
      [⟨"banana", "t", none, none⟩] ∧
    "banana" ∉ canonicalSeverities ∧
    scoreFindings [⟨"banana", "t", none, none⟩] = 1 := by
  have hw : weightOf "banana" = 1 := by decide
  refine ⟨rfl, by decide, ?_⟩
  rw [scoreFindings_eq_sum]
  norm_num [findingContribution, effConfidence, hw, jsRound]

/-- C5 (amended): ingestion performs no severity validation — the parsed
findings are passed through as-is — and an unrecognized severity reaches
the risk scorer, which maps it to the fallback weight 1 (the weight of an
info finding) instead of rejecting it. -/
theorem severity_fallback_amended (s : String) (hs : s ∉ canonicalSeverities) :
    weightOf s = 1 ∧
    ∀ findings : List Finding, runStaticAnalysisResult (some findings) = findings := by
  refine ⟨?_, fun _ => rfl⟩
  simp only [canonicalSeverities, List.mem_cons, List.not_mem_nil, or_false,
    not_or] at hs
  obtain ⟨h1, h2, h3, h4, h5⟩ := hs
  simp [weightOf, h1, h2, h3, h4, h5]

/-- Witness for the amended C5 at the severity "banana". -/
theorem severity_fallback_amended_witness :
    weightOf "banana" = 1 ∧
    ∀ findings : List Finding, runStaticAnalysisResult (some findings) = findings :=
  severity_fallback_amended "banana" (by decide)

theorem saveToHistoryList_eq_take (history : List HistoryEntry) (e : HistoryEntry) :
    saveToHistoryList history e = (e :: history).take 100 := by
  by_cases h : 100 < (e :: history).length
  · simp [saveToHistoryList, h]
  · simp [saveToHistoryList, h,
      List.take_of_length_le (by omega : (e :: history).length ≤ 100)]

theorem foldl_saveToHistoryList (entries : List HistoryEntry)
    (acc : List HistoryEntry) :
    entries.foldl saveToHistoryList (acc.take 100) =
      (entries.reverse ++ acc).take 100 := by
  induction entries generalizing acc with
  | nil => simp
  | cons e t ih =>
    have hstep : saveToHistoryList (acc.take 100) e = ((e :: acc).take 100) := by
      rw [saveToHistoryList_eq_take]
      rw [show (100 : ℕ) = 99 + 1 from rfl, List.take_succ_cons, List.take_succ_cons,
        List.take_take]
      norm_num
    rw [List.foldl_cons, hstep, ih (e :: acc), List.reverse_cons, List.append_assoc,
      List.singleton_append]

/-- C4: after any sequence of appends to the history ledger starting from
an empty ledger, the ledger holds at most 100 entries, and it is exactly
the 100 most recent appended entries, newest first. -/
theorem history_ledger_bounded (entries : List HistoryEntry) :
    (entries.foldl saveToHistoryList []).length ≤ 100 ∧
    entries.foldl saveToHistoryList [] = entries.reverse.take 100 := by
  have h : entries.foldl saveToHistoryList [] = entries.reverse.take 100 := by
    have := foldl_saveToHistoryList entries []
    simpa using this
  exact ⟨by rw [h]; simp [List.length_take], h⟩

/-- C2: the trusted-root check of `validateContractPath` is the JavaScript
substring test `resolvedPath.includes(process.cwd())`, not a descendant
check: with working directory "/app", the resolved path "/tmp/app/c.sol"
(a regular .sol file outside the project directory) passes validation even
though it is not a descendant of the root, contradicting the claim that
validation succeeds only for descendants of the trusted root. -/
theorem validateContractPath_substring_escape :
    validateContractPath
        (fun p => if p = "/tmp/app/c.sol" then FsNode.file else FsNode.missing)
        "/app" "/tmp/app/c.sol" = Except.ok "/tmp/app/c.sol" ∧
    ¬ isDescendantOf "/tmp/app/c.sol" "/app" := by
  constructor
  · rfl
  · decide

theorem weightOf_mono {s1 s2 : String} (h1 : s1 ∈ canonicalSeverities)
    (h2 : s2 ∈ canonicalSeverities) (h : sevRank s1 ≤ sevRank s2) :
    weightOf s1 ≤ weightOf s2 := by
  simp only [canonicalSeverities, List.mem_cons, List.not_mem_nil, or_false] at h1 h2
  rcases h1 with rfl | rfl | rfl | rfl | rfl <;>
    rcases h2 with rfl | rfl | rfl | rfl | rfl <;>
      revert h <;> decide

/-- C6: replacing the severity of one finding by a canonically larger one
(info < low < medium < high < critical), all other fields and findings held
fixed, never decreases the risk score (given the data-contract assumption
that a present confidence is nonnegative). -/
theorem riskScore_monotone_in_severity (pre post : List Finding) (f : Finding)
    (s2 : String) (h1 : f.severity ∈ canonicalSeverities)
    (h2 : s2 ∈ canonicalSeverities) (hrank : sevRank f.severity ≤ sevRank s2)
    (hconf : ∀ c, f.confidence = some c → 0 ≤ c) :
    scoreFindings (pre ++ f :: post) ≤
      scoreFindings (pre ++ { f with severity := s2 } :: post) := by
  rw [scoreFindings_eq_sum, scoreFindings_eq_sum]
  apply min_le_min _ le_rfl
  apply jsRound_mono
  rw [List.map_append, List.map_append, List.map_cons, List.map_cons,
    List.sum_append, List.sum_append, List.sum_cons, List.sum_cons]
  have hcontrib : findingContribution f ≤ findingContribution { f with severity := s2 } := by
    unfold findingContribution
    have he : effConfidence { f with severity := s2 } = effConfidence f := rfl
    rw [he]
    apply mul_le_mul_of_nonneg_right _ (effConfidence_nonneg f hconf)
    exact_mod_cast weightOf_mono h1 h2 hrank
  linarith

/-- Witness for C6: raising a lone low finding to high. -/
theorem riskScore_monotone_in_severity_witness :
    scoreFindings ([] ++ (⟨"low", "t", none, none⟩ : Finding) :: []) ≤
      scoreFindings
        ([] ++ ({ (⟨"low", "t", none, none⟩ : Finding) with severity := "high" }) :: []) :=
  riskScore_monotone_in_severity [] [] ⟨"low", "t", none, none⟩ "high"
    (by decide) (by decide) (by decide) (fun _ hc => Option.noConfusion hc)

theorem find?_upsert {β : Type} (l : List (String × β)) (k : String) (v : β) :
    (upsert l k v).find? (fun p => p.1 = k) = some (k, v) := by
  induction l with
  | nil => simp [upsert]
  | cons p t ih =>
    by_cases h : p.1 = k
    · simp [upsert, h]
    · simp [upsert, h, ih]

theorem lookupStatus_update (st : SysState) (id s m : String) :
    lookupStatus (updateScanStatus st id s m) id = some ⟨s, m⟩ := by
  simp [lookupStatus, updateScanStatus, find?_upsert]

theorem updateScanStatus_history (st : SysState) (i s m : String) :
    (updateScanStatus st i s m).history = st.history := rfl

/-- C3: whenever the scan endpoint returns a server-failure response
(i.e. any exception was raised after the scan id was drawn — a body-parse
failure or a pipeline failure), the returned state carries a terminal
status record `failed` for that scan id whose message is the returned
error message, and the failure response names the scan id; the status is
never left at `running`. -/
theorem postScan_failure_writes_failed_status
    (st : SysState) (scanId : String) (startTime endTime : ℕ)
    (body : Except String ScanRequest) (fsStat : String → FsNode) (cwd : String)
    (resolve : String → String) (staticOutcome : Except String (List Finding))
    (aiFindings : List Finding) (e c sid : String)
    (hresp : (postScan st scanId startTime endTime body fsStat cwd resolve
        staticOutcome aiFindings).2 = PostResponse.serverError e c sid) :
    lookupStatus (postScan st scanId startTime endTime body fsStat cwd resolve
        staticOutcome aiFindings).1 scanId = some ⟨"failed", e⟩ ∧ sid = scanId := by
  rcases body with msg | req
  · simp only [postScan] at hresp ⊢
    rw [PostResponse.serverError.injEq] at hresp
    obtain ⟨rfl, -, rfl⟩ := hresp
    exact ⟨lookupStatus_update _ _ _ _, rfl⟩
  · by_cases hcp : req.contractPath = ""
    · simp only [postScan, hcp, eq_self_iff_true, if_true] at hresp
      simp at hresp
    · cases hval : validateContractPath fsStat cwd (resolve req.contractPath) with
      | error err =>
        simp only [postScan, hcp, hval, if_false] at hresp
        simp at hresp
      | ok rp =>
        cases hstat : staticOutcome with
        | error es =>
          simp only [postScan, hcp, hval, executeScanPipeline, hstat, if_false] at hresp ⊢
          rw [PostResponse.serverError.injEq] at hresp
          obtain ⟨rfl, -, rfl⟩ := hresp
          exact ⟨lookupStatus_update _ _ _ _, rfl⟩
        | ok fl =>
          simp only [postScan, hcp, hval, executeScanPipeline, hstat, if_false] at hresp
          simp at hresp

/-- Witness for C3: a failing static pass produces a failed status record
holding the propagated error message. -/
theorem postScan_failure_writes_failed_status_witness :
    lookupStatus (postScan ⟨[], [], []⟩ "id1" 0 5
        (Except.ok ⟨"/x.sol", none, none, none, none⟩)
        (fun _ => FsNode.file) "" (fun p => p) (Except.error "boom") []).1 "id1" =
      some ⟨"failed", "Pipeline execution failed: boom"⟩ ∧
    "id1" = "id1" :=
  postScan_failure_writes_failed_status ⟨[], [], []⟩ "id1" 0 5
    (Except.ok ⟨"/x.sol", none, none, none, none⟩)
    (fun _ => FsNode.file) "" (fun p => p) (Except.error "boom") []
    "Pipeline execution failed: boom" "SCAN_FAILED" "id1" (by rfl)

/-- C10: a history entry is appended only when the scan pipeline completes
successfully — the appended entry carries status `'completed'` — and a
request that fails (bad request or server failure) leaves the history
ledger untouched. -/
theorem history_appended_only_on_success
    (st : SysState) (scanId : String) (startTime endTime : ℕ)
    (body : Except String ScanRequest) (fsStat : String → FsNode) (cwd : String)
    (resolve : String → String) (staticOutcome : Except String (List Finding))
    (aiFindings : List Finding) :
    (∀ report, (postScan st scanId startTime endTime body fsStat cwd resolve
        staticOutcome aiFindings).2 = PostResponse.ok report →
      (postScan st scanId startTime endTime body fsStat cwd resolve
        staticOutcome aiFindings).1.history =
          saveToHistoryList st.history (mkHistoryEntry report) ∧
      (mkHistoryEntry report).status = "completed") ∧
    (∀ e c sid, (postScan st scanId startTime endTime body fsStat cwd resolve
        staticOutcome aiFindings).2 = PostResponse.serverError e c sid →
      (postScan st scanId startTime endTime body fsStat cwd resolve
        staticOutcome aiFindings).1.history = st.history) ∧
    (∀ e c, (postScan st scanId startTime endTime body fsStat cwd resolve
        staticOutcome aiFindings).2 = PostResponse.badRequest e c →
      (postScan st scanId startTime endTime body fsStat cwd resolve
        staticOutcome aiFindings).1.history = st.history) := by
  rcases body with msg | req
  · refine ⟨fun report h => ?_, fun e c sid h => rfl, fun e c h => ?_⟩
    · simp only [postScan] at h; simp at h
    · simp only [postScan] at h; simp at h
  · by_cases hcp : req.contractPath = ""
    · refine ⟨fun report h => ?_, fun e c sid h => ?_, fun e c h => ?_⟩
      · simp only [postScan, hcp, eq_self_iff_true, if_true] at h; simp at h
      · simp only [postScan, hcp, eq_self_iff_true, if_true] at h; simp at h
      · simp only [postScan, hcp, eq_self_iff_true, if_true]
    · cases hval : validateContractPath fsStat cwd (resolve req.contractPath) with
      | error err =>
        refine ⟨fun report h => ?_, fun e c sid h => ?_, fun e c h => ?_⟩
        · simp only [postScan, hcp, hval, if_false] at h; simp at h
        · simp only [postScan, hcp, hval, if_false] at h; simp at h
        · simp only [postScan, hcp, hval, if_false]
      | ok rp =>
        cases hstat : staticOutcome with
        | error es =>
          refine ⟨fun report h => ?_, fun e c sid h => ?_, fun e c h => ?_⟩
          · simp only [postScan, hcp, hval, executeScanPipeline, hstat, if_false] at h
            simp at h
          · simp only [postScan, hcp, hval, executeScanPipeline, hstat, if_false]
            rfl
          · simp only [postScan, hcp, hval, executeScanPipeline, hstat, if_false] at h
            simp at h
        | ok fl =>
          refine ⟨fun report h => ?_, fun e c sid h => ?_, fun e c h => ?_⟩
          · cases hai : req.includeAI.getD true <;>
            · simp only [postScan, hcp, hval, executeScanPipeline, hstat, hai,
                Bool.false_eq_true, eq_self_iff_true, if_false, if_true] at h ⊢
              rw [PostResponse.ok.injEq] at h
              subst h
              exact ⟨rfl, rfl⟩
          · simp only [postScan, hcp, hval, executeScanPipeline, hstat, if_false] at h
            simp at h
          · simp only [postScan, hcp, hval, executeScanPipeline, hstat, if_false] at h
            simp at h

/-- Witness for C10: a successful empty scan appends exactly one completed
entry. -/
theorem history_appended_only_on_success_witness :
    (postScan ⟨[], [], []⟩ "id1" 0 5
        (Except.ok ⟨"/x.sol", none, none, none, none⟩)
        (fun _ => FsNode.file) "" (fun p => p) (Except.ok []) []).1.history =
      saveToHistoryList [] (mkHistoryEntry demoReport) ∧
    (mkHistoryEntry demoReport).status = "completed" :=
  (history_appended_only_on_success ⟨[], [], []⟩ "id1" 0 5
    (Except.ok ⟨"/x.sol", none, none, none, none⟩)
    (fun _ => FsNode.file) "" (fun p => p) (Except.ok []) []).1 demoReport (by rfl)

theorem foldl_pair {α β γ : Type} (g1 : β → α → β) (g2 : γ → α → γ)
    (l : List α) (x : β) (y : γ) :
    l.foldl (fun a f => (g1 a.1 f, g2 a.2 f)) (x, y) = (l.foldl g1 x, l.foldl g2 y) := by
  induction l generalizing x y with
  | nil => rfl
  | cons f t ih => simp [List.foldl_cons, ih]

theorem foldl_processScan (cache : String → Option ScanReport)
    (scans : List HistoryEntry) (acc : List (String × ℕ) × List (String × ClusterAcc)) :
    scans.foldl (processScan cache) acc =
      ((scans.filterMap (fun s => cache s.id)).map allFindingsOf).flatten.foldl
        (fun a f =>
          (jsGroupStep (fun f0 : Finding => f0.severity) (fun _ => 1) (fun n _ => n + 1) a.1 f,
           jsGroupStep (fun f0 : Finding => normalizeKey f0.title) clusterInit clusterUpd a.2 f))
        acc := by
  induction scans generalizing acc with
  | nil => rfl
  | cons s t ih =>
    cases hc : cache s.id with
    | none =>
      rw [List.foldl_cons, List.filterMap_cons]
      simp only [hc]
      rw [ih]
      simp [processScan, hc]
    | some r =>
      rw [List.foldl_cons, List.filterMap_cons]
      simp only [hc]
      rw [ih]
      simp [processScan, hc, List.foldl_append]

/-- C9: the detailed analytics pass (severity distribution and top
vulnerabilities) reads cached reports for only the 50 most recent ledger
entries, and an entry whose cached report is missing or unreadable is
simply skipped: the computation is a total function of the successfully
loaded reports of that window. -/
theorem detailedAnalytics_bounded_window (cache : String → Option ScanReport)
    (history : List HistoryEntry) :
    calculateDetailedAnalytics cache history =
      calculateDetailedAnalytics cache (history.take 50) ∧
    calculateDetailedAnalytics cache history =
      detailedFromFindings (loadedFindings cache history) := by
  constructor
  · unfold calculateDetailedAnalytics
    rw [List.take_take]
    norm_num
  · unfold calculateDetailedAnalytics detailedFromFindings loadedFindings jsGroupFold
    rw [foldl_processScan, foldl_pair]

theorem groupVal_append {α β : Type} [Inhabited β] (init : α → β) (upd : β → α → β)
    (xs : List α) (a : α) (h : xs ≠ []) :
    groupVal init upd (xs ++ [a]) = upd (groupVal init upd xs) a := by
  cases xs with
  | nil => exact absurd rfl h
  | cons b t => simp [groupVal, List.foldl_append]

theorem foldl_insKeys_mem {κ : Type} [DecidableEq κ] (l : List κ) (acc : List κ)
    (x : κ) :
    (x ∈ l.foldl (fun a k => if k ∈ a then a else a ++ [k]) acc) ↔
      x ∈ acc ∨ x ∈ l := by
  induction l generalizing acc with
  | nil => simp
  | cons k t ih =>
    rw [List.foldl_cons, ih]
    by_cases hk : k ∈ acc
    · rw [if_pos hk]
      constructor
      · rintro (ha | ht)
        · exact Or.inl ha
        · exact Or.inr (List.mem_cons_of_mem _ ht)
      · rintro (ha | ht)
        · exact Or.inl ha
        · rcases List.mem_cons.mp ht with rfl | ht2
          · exact Or.inl hk
          · exact Or.inr ht2
    · rw [if_neg hk]
      simp only [List.mem_append, List.mem_singleton, List.mem_cons]
      tauto

theorem mem_insKeys {κ : Type} [DecidableEq κ] (l : List κ) (x : κ) :
    x ∈ insKeys l ↔ x ∈ l := by
  unfold insKeys
  rw [foldl_insKeys_mem]
  simp

theorem nodup_foldl_insKeys {κ : Type} [DecidableEq κ] (l : List κ) (acc : List κ)
    (h : acc.Nodup) :
    (l.foldl (fun a k => if k ∈ a then a else a ++ [k]) acc).Nodup := by
  induction l generalizing acc with
  | nil => exact h
  | cons k t ih =>
    rw [List.foldl_cons]
    by_cases hk : k ∈ acc
    · rw [if_pos hk]; exact ih acc h
    · rw [if_neg hk]
      exact ih _ (by simp [List.nodup_append, h, hk])

theorem nodup_insKeys {κ : Type} [DecidableEq κ] (l : List κ) : (insKeys l).Nodup :=
  nodup_foldl_insKeys l [] List.nodup_nil

theorem insKeys_append_singleton {κ : Type} [DecidableEq κ] (l : List κ) (k : κ) :
    insKeys (l ++ [k]) = if k ∈ insKeys l then insKeys l else insKeys l ++ [k] := by
  unfold insKeys
  rw [List.foldl_append]
  rfl

theorem filter_key_ne_nil {κ α : Type} [DecidableEq κ] (keyOf : α → κ) (l : List α)
    (k : κ) (h : k ∈ l.map keyOf) :
    l.filter (fun a => keyOf a = k) ≠ [] := by
  obtain ⟨x, hx, rfl⟩ := List.mem_map.mp h
  intro hnil
  have := List.filter_eq_nil_iff.mp hnil x hx
  simp at this

theorem filter_key_nil {κ α : Type} [DecidableEq κ] (keyOf : α → κ) (l : List α)
    (k : κ) (h : k ∉ l.map keyOf) :
    l.filter (fun a => keyOf a = k) = [] := by
  rw [List.filter_eq_nil_iff]
  intro x hx
  simp only [decide_eq_true_eq]
  intro hk
  exact h (List.mem_map.mpr ⟨x, hx, hk⟩)

theorem jsGroupFold_rep {κ α β : Type} [DecidableEq κ] [Inhabited β]
    (keyOf : α → κ) (init : α → β) (upd : β → α → β) (l : List α) :
    jsGroupFold keyOf init upd l =
      (insKeys (l.map keyOf)).map
        (fun k => (k, groupVal init upd (l.filter (fun a => keyOf a = k)))) := by
  induction l using List.reverseRecOn with
  | nil => rfl
  | append_singleton l a ih =>
    have hstep : jsGroupFold keyOf init upd (l ++ [a]) =
        jsGroupStep keyOf init upd (jsGroupFold keyOf init upd l) a := by
      unfold jsGroupFold
      rw [List.foldl_append]
      rfl
    rw [hstep, ih, List.map_append, List.map_singleton, insKeys_append_singleton]
    by_cases hmem : keyOf a ∈ insKeys (l.map keyOf)
    · rw [if_pos hmem]
      have hmemK : keyOf a ∈ l.map keyOf := (mem_insKeys _ _).mp hmem
      have hany : ((insKeys (l.map keyOf)).map
          (fun k => (k, groupVal init upd (l.filter (fun x => keyOf x = k))))).any
            (fun p => p.1 = keyOf a) = true :=
        List.any_eq_true.mpr
          ⟨(keyOf a, groupVal init upd (l.filter (fun x => keyOf x = keyOf a))),
            List.mem_map_of_mem _ hmem, by simp⟩
      unfold jsGroupStep
      rw [if_pos hany, List.map_map]
      apply List.map_congr_left
      intro k hk
      dsimp only [Function.comp_apply]
      by_cases hka : k = keyOf a
      · rw [if_pos hka]
        have hkK : k ∈ l.map keyOf := by rw [hka]; exact hmemK
        have hfa : [a].filter (fun x => keyOf x = k) = [a] := by simp [hka.symm]
        rw [List.filter_append, hfa,
          groupVal_append init upd _ a (filter_key_ne_nil keyOf l k hkK)]
      · rw [if_neg hka]
        have hne : keyOf a ≠ k := fun h => hka h.symm
        have hfa : [a].filter (fun x => keyOf x = k) = [] := by simp [hne]
        rw [List.filter_append, hfa, List.append_nil]
    · rw [if_neg hmem]
      have hmemK : keyOf a ∉ l.map keyOf := fun h => hmem ((mem_insKeys _ _).mpr h)
      have hany : ((insKeys (l.map keyOf)).map
          (fun k => (k, groupVal init upd (l.filter (fun x => keyOf x = k))))).any
            (fun p => p.1 = keyOf a) = false := by
        rw [Bool.eq_false_iff]
        intro htrue
        obtain ⟨p, hp, hp1⟩ := List.any_eq_true.mp htrue
        obtain ⟨k, hk, rfl⟩ := List.mem_map.mp hp
        simp only [decide_eq_true_eq] at hp1
        exact hmem (hp1 ▸ hk)
      unfold jsGroupStep
      rw [if_neg (by simp [hany]), List.map_append]
      congr 1
      · apply List.map_congr_left
        intro k hk
        have hka : k ≠ keyOf a := fun h => hmem (h ▸ hk)
        have hne : keyOf a ≠ k := fun h => hka h.symm
        have hfa : [a].filter (fun x => keyOf x = k) = [] := by simp [hne]
        rw [List.filter_append, hfa, List.append_nil]
      · rw [List.map_singleton, List.filter_append,
          filter_key_nil keyOf l (keyOf a) hmemK]
        simp [groupVal]

theorem jsSortLe_trans {α : Type} (key : α → ℤ) (a b c : ℕ × α)
    (h1 : jsSortLe key a b = true) (h2 : jsSortLe key b c = true) :
    jsSortLe key a c = true := by
  simp only [jsSortLe, decide_eq_true_eq] at h1 h2 ⊢
  rcases h1 with h1 | ⟨h1, h1i⟩ <;> rcases h2 with h2 | ⟨h2, h2i⟩
  · exact Or.inl (h1.trans h2)
  · exact Or.inl (h2 ▸ h1)
  · exact Or.inl (lt_of_eq_of_lt h1 h2)
  · exact Or.inr ⟨h1.trans h2, h1i.trans h2i⟩

theorem jsSortLe_total {α : Type} (key : α → ℤ) (a b : ℕ × α) :
    (jsSortLe key a b || jsSortLe key b a) = true := by
  simp only [jsSortLe, Bool.or_eq_true, decide_eq_true_eq]
  rcases lt_trichotomy (key a.2) (key b.2) with h | h | h
  · exact Or.inl (Or.inl h)
  · rcases le_total a.1 b.1 with hi | hi
    · exact Or.inl (Or.inr ⟨h, hi⟩)
    · exact Or.inr (Or.inr ⟨h.symm, hi⟩)
  · exact Or.inr (Or.inl h)

theorem jsStableSortBy_perm {α : Type} (key : α → ℤ) (l : List α) :
    (jsStableSortBy key l).Perm l := by
  unfold jsStableSortBy
  have h := (List.mergeSort_perm l.enum (jsSortLe key)).map Prod.snd
  rwa [List.enum_map_snd] at h

theorem jsStableSortBy_pairwise_le {α : Type} (key : α → ℤ) (l : List α) :
    (jsStableSortBy key l).Pairwise (fun a b => key a ≤ key b) := by
  unfold jsStableSortBy
  rw [List.pairwise_map]
  refine (List.sorted_mergeSort (jsSortLe_trans key) (jsSortLe_total key)
    l.enum).imp ?_
  intro a b h
  simp only [jsSortLe, decide_eq_true_eq] at h
  rcases h with h | ⟨h, -⟩
  · exact h.le
  · exact h.le

theorem jsStableSortBy_pairwise_lt {α : Type} (key : α → ℤ) (l : List α)
    (h : (l.map key).Nodup) :
    (jsStableSortBy key l).Pairwise (fun a b => key a < key b) := by
  have hperm : ((jsStableSortBy key l).map key).Perm (l.map key) :=
    (jsStableSortBy_perm key l).map key
  have hnd : ((jsStableSortBy key l).map key).Nodup := hperm.symm.nodup h
  have hne : (jsStableSortBy key l).Pairwise (fun a b => key a ≠ key b) :=
    List.pairwise_map.mp hnd
  exact ((jsStableSortBy_pairwise_le key l).and hne).imp
    (fun hab => lt_of_le_of_ne hab.1 hab.2)

theorem foldl_trendUpd (t : List HistoryEntry) (c fnd : ℕ) (rs : List ℤ) :
    t.foldl trendUpd ⟨c, fnd, rs⟩ =
      ⟨c + t.length, fnd + (t.map (fun e => e.findings_count)).sum,
        rs ++ t.map (fun e => e.risk_score)⟩ := by
  induction t generalizing c fnd rs with
  | nil => simp
  | cons e t ih =>
    rw [List.foldl_cons]
    show List.foldl trendUpd ⟨c + 1, fnd + e.findings_count, rs ++ [e.risk_score]⟩ t = _
    rw [ih]
    simp only [TrendAcc.mk.injEq, List.length_cons, List.map_cons, List.sum_cons]
    refine ⟨by omega, by omega, by simp⟩

theorem groupVal_trend (es : List HistoryEntry) (h : es ≠ []) :
    groupVal trendInit trendUpd es =
      ⟨es.length, (es.map (fun e => e.findings_count)).sum,
        es.map (fun e => e.risk_score)⟩ := by
  cases es with
  | nil => exact absurd rfl h
  | cons e t =>
    show t.foldl trendUpd (trendInit e) = _
    rw [show trendInit e = ⟨1, e.findings_count, [e.risk_score]⟩ from rfl,
      foldl_trendUpd]
    simp only [TrendAcc.mk.injEq, List.length_cons, List.map_cons, List.sum_cons]
    refine ⟨by omega, trivial, by simp⟩

theorem finalize_specBucket (history : List HistoryEntry) (k : ℕ)
    (hk : k ∈ history.map dateKey) :
    finalizeTrend (k, groupVal trendInit trendUpd
        (history.filter (fun e => dateKey e = k))) = specBucket history k := by
  have hne := filter_key_ne_nil dateKey history k hk
  rw [groupVal_trend _ hne]
  unfold finalizeTrend specBucket entriesOn
  simp only [List.length_map]

/-- C7: the scan-trend series equals, bucket for bucket, the specified one —
one bucket per distinct UTC calendar date appearing in the ledger, holding
that date's scan count, summed findings and integer-rounded mean risk
score; the series is strictly ascending by date and holds at most the 30
most recent such buckets. -/
theorem scanTrends_spec (history : List HistoryEntry) :
    calculateScanTrends history = specScanTrends history ∧
    (calculateScanTrends history).Pairwise (fun a b => a.date < b.date) ∧
    (calculateScanTrends history).length ≤ 30 := by
  have hmapped : (jsGroupFold dateKey trendInit trendUpd history).map finalizeTrend
      = (insKeys (history.map dateKey)).map (specBucket history) := by
    rw [jsGroupFold_rep, List.map_map]
    exact List.map_congr_left (fun k hk =>
      finalize_specBucket history k ((mem_insKeys _ _).mp hk))
  have hnodupdates : (((jsGroupFold dateKey trendInit trendUpd history).map
      finalizeTrend).map (fun t : Trend => (t.date : ℤ))).Nodup := by
    rw [hmapped, List.map_map]
    have hcomp : ((fun t : Trend => (t.date : ℤ)) ∘ specBucket history) =
        (fun k : ℕ => (k : ℤ)) := rfl
    rw [hcomp]
    exact (nodup_insKeys _).map Nat.cast_injective
  have hcode_lt : (jsStableSortBy (fun t : Trend => (t.date : ℤ))
      ((jsGroupFold dateKey trendInit trendUpd history).map finalizeTrend)).Pairwise
      (fun a b => a.date < b.date) :=
    (jsStableSortBy_pairwise_lt (fun t : Trend => (t.date : ℤ)) _ hnodupdates).imp
      (fun h => by exact_mod_cast h)
  have hsd_perm : ((history.map dateKey).dedup.mergeSort
      (fun a b => decide (a ≤ b))).Perm (history.map dateKey).dedup :=
    List.mergeSort_perm _ _
  have hsd_nodup : ((history.map dateKey).dedup.mergeSort
      (fun a b => decide (a ≤ b))).Nodup :=
    hsd_perm.symm.nodup (List.nodup_dedup _)
  have hsd_le : ((history.map dateKey).dedup.mergeSort
      (fun a b => decide (a ≤ b))).Pairwise (fun a b : ℕ => a ≤ b) := by
    refine (List.sorted_mergeSort ?_ ?_ _).imp ?_
    · intro a b c h1 h2
      simp only [decide_eq_true_eq] at h1 h2 ⊢
      omega
    · intro a b
      simp only [Bool.or_eq_true, decide_eq_true_eq]
      omega
    · intro a b h
      simpa using h
  have hsd_ne : ((history.map dateKey).dedup.mergeSort
      (fun a b => decide (a ≤ b))).Pairwise (fun a b : ℕ => a ≠ b) := hsd_nodup
  have hsd_lt : ((history.map dateKey).dedup.mergeSort
      (fun a b => decide (a ≤ b))).Pairwise (fun a b : ℕ => a < b) :=
    (hsd_le.and hsd_ne).imp (fun h => lt_of_le_of_ne h.1 h.2)
  have hspec_lt : (((history.map dateKey).dedup.mergeSort
      (fun a b => decide (a ≤ b))).map (specBucket history)).Pairwise
      (fun a b => a.date < b.date) := by
    rw [List.pairwise_map]
    exact hsd_lt
  have hperm0 : (insKeys (history.map dateKey)).Perm (history.map dateKey).dedup :=
    (List.perm_ext_iff_of_nodup (nodup_insKeys _) (List.nodup_dedup _)).mpr
      (fun a => by rw [mem_insKeys, List.mem_dedup])
  have h2 : ((jsGroupFold dateKey trendInit trendUpd history).map finalizeTrend).Perm
      (((history.map dateKey).dedup.mergeSort (fun a b => decide (a ≤ b))).map
        (specBucket history)) := by
    rw [hmapped]
    exact (hperm0.trans hsd_perm.symm).map _
  have hperm : (jsStableSortBy (fun t : Trend => (t.date : ℤ))
      ((jsGroupFold dateKey trendInit trendUpd history).map finalizeTrend)).Perm
      (((history.map dateKey).dedup.mergeSort (fun a b => decide (a ≤ b))).map
        (specBucket history)) :=
    (jsStableSortBy_perm _ _).trans h2
  have heq : jsStableSortBy (fun t : Trend => (t.date : ℤ))
      ((jsGroupFold dateKey trendInit trendUpd history).map finalizeTrend) =
      ((history.map dateKey).dedup.mergeSort (fun a b => decide (a ≤ b))).map
        (specBucket history) :=
    List.eq_of_perm_of_sorted hperm hcode_lt hspec_lt
  refine ⟨?_, ?_, ?_⟩
  · simp only [calculateScanTrends, specScanTrends]
    rw [heq, List.length_map]
  · simp only [calculateScanTrends]
    exact List.Pairwise.sublist (List.drop_sublist _ _) hcode_lt
  · simp only [calculateScanTrends]
    rw [List.length_drop]
    omega

theorem calculateDetailedAnalytics_eq (cache : String → Option ScanReport)
    (history : List HistoryEntry) :
    calculateDetailedAnalytics cache history =
      detailedFromFindings (loadedFindings cache history) := by
  unfold calculateDetailedAnalytics detailedFromFindings loadedFindings jsGroupFold
  rw [foldl_processScan, foldl_pair]

theorem foldl_countUpd {α : Type} (t : List α) (c : ℕ) :
    t.foldl (fun n _ => n + 1) c = c + t.length := by
  induction t generalizing c with
  | nil => simp
  | cons x t ih =>
    rw [List.foldl_cons, ih]
    simp
    omega

theorem groupVal_count {α : Type} (xs : List α) (h : xs ≠ []) :
    groupVal (fun _ : α => (1 : ℕ)) (fun n _ => n + 1) xs = xs.length := by
  cases xs with
  | nil => exact absurd rfl h
  | cons x t =>
    show t.foldl (fun n _ => n + 1) 1 = _
    rw [foldl_countUpd]
    simp
    omega

theorem filter_eq_length_count (l : List String) (s : String) :
    (l.filter (fun x => x = s)).length = l.count s := by
  have hfn : (fun x : String => decide (x = s)) = (fun x : String => x == s) := by
    funext x
    rw [Bool.eq_iff_iff]
    simp
  rw [List.count_eq_countP, List.countP_eq_length_filter, ← hfn]

theorem foldl_clusterUpd (t : List Finding) (c : ℕ) (ss : List String) :
    t.foldl clusterUpd ⟨c, ss⟩ =
      ⟨c + t.length, ss ++ t.map (fun f => f.severity)⟩ := by
  induction t generalizing c ss with
  | nil => simp
  | cons f t ih =>
    rw [List.foldl_cons]
    show List.foldl clusterUpd ⟨c + 1, ss ++ [f.severity]⟩ t = _
    rw [ih]
    simp only [ClusterAcc.mk.injEq, List.length_cons, List.map_cons]
    refine ⟨by omega, by simp⟩

theorem groupVal_cluster (fs : List Finding) (h : fs ≠ []) :
    groupVal clusterInit clusterUpd fs =
      ⟨fs.length, fs.map (fun f => f.severity)⟩ := by
  cases fs with
  | nil => exact absurd rfl h
  | cons f t =>
    show t.foldl clusterUpd (clusterInit f) = _
    rw [show clusterInit f = ⟨1, [f.severity]⟩ from rfl, foldl_clusterUpd]
    simp only [ClusterAcc.mk.injEq, List.length_cons, List.map_cons]
    refine ⟨by omega, by simp⟩

theorem pairwise_indexOf_insKeys {κ : Type} [DecidableEq κ] (l : List κ) :
    (insKeys l).Pairwise (fun x y => l.indexOf x < l.indexOf y) := by
  induction l using List.reverseRecOn with
  | nil => exact List.Pairwise.nil
  | append_singleton l k ih =>
    rw [insKeys_append_singleton]
    by_cases hk : k ∈ insKeys l
    · rw [if_pos hk]
      refine ih.imp_of_mem ?_
      intro x y hx hy hxy
      have hxl : x ∈ l := (mem_insKeys _ _).mp hx
      have hyl : y ∈ l := (mem_insKeys _ _).mp hy
      rw [List.indexOf_append_of_mem hxl, List.indexOf_append_of_mem hyl]
      exact hxy
    · rw [if_neg hk]
      rw [List.pairwise_append]
      refine ⟨?_, List.pairwise_singleton _ _, ?_⟩
      · refine ih.imp_of_mem ?_
        intro x y hx hy hxy
        have hxl : x ∈ l := (mem_insKeys _ _).mp hx
        have hyl : y ∈ l := (mem_insKeys _ _).mp hy
        rw [List.indexOf_append_of_mem hxl, List.indexOf_append_of_mem hyl]
        exact hxy
      · intro x hx b hb
        rw [List.mem_singleton] at hb
        have hxl : x ∈ l := (mem_insKeys _ _).mp hx
        have hkl : k ∉ l := fun hkk => hk ((mem_insKeys _ _).mpr hkk)
        rw [hb, List.indexOf_append_of_mem hxl, List.indexOf_append_of_not_mem hkl]
        have := List.indexOf_lt_length.mpr hxl
        omega

theorem enum_self_mem {α : Type} (l : List α) (j : ℕ) (hj : j < l.length) :
    (j, l.get ⟨j, hj⟩) ∈ l.enum := by
  have hlen : j < l.enum.length := by simpa using hj
  have h := List.getElem_enum l j hlen
  have hmem : l.enum[j] ∈ l.enum := List.getElem_mem hlen
  rw [h] at hmem
  exact hmem

/-- The head of a stable sort: it occurs in the input, its key is minimal,
and among equal keys its original position is minimal. -/
theorem jsStableSortBy_head_min {α : Type} (key : α → ℤ) (l : List α)
    (p : α) (rest : List α)
    (h : jsStableSortBy key l = p :: rest) :
    ∃ i, ∃ hi : i < l.length, l.get ⟨i, hi⟩ = p ∧
      (∀ x ∈ l, key p ≤ key x) ∧
      (∀ j, ∀ hj : j < l.length, key (l.get ⟨j, hj⟩) = key p → i ≤ j) := by
  unfold jsStableSortBy at h
  cases hms : l.enum.mergeSort (jsSortLe key) with
  | nil => rw [hms] at h; simp at h
  | cons q qrest =>
    rw [hms] at h
    simp only [List.map_cons, List.cons.injEq] at h
    obtain ⟨hq2, -⟩ := h
    have hsorted := List.sorted_mergeSort (jsSortLe_trans key) (jsSortLe_total key) l.enum
    rw [hms] at hsorted
    have hhead : ∀ r ∈ qrest, jsSortLe key q r = true :=
      (List.pairwise_cons.mp hsorted).1
    have hqmem : q ∈ l.enum := by
      have := List.mergeSort_perm l.enum (jsSortLe key)
      rw [hms] at this
      exact this.mem_iff.mp (List.mem_cons_self _ _)
    obtain ⟨hqlt, hqget⟩ := List.mem_enum hqmem
    refine ⟨q.1, hqlt, ?_, ?_, ?_⟩
    · rw [← hq2, hqget]
      rfl
    · intro x hx
      obtain ⟨⟨j, hj⟩, rfl⟩ := List.mem_iff_get.mp hx
      have hpair : (j, l.get ⟨j, hj⟩) ∈ l.enum := enum_self_mem l j hj
      have hpair2 : (j, l.get ⟨j, hj⟩) ∈ q :: qrest := by
        have := List.mergeSort_perm l.enum (jsSortLe key)
        rw [hms] at this
        exact this.symm.mem_iff.mp hpair
      rcases List.mem_cons.mp hpair2 with heq | hmem2
      · have : l.get ⟨j, hj⟩ = q.2 := congrArg Prod.snd heq
        rw [this, hq2]
      · have hle := hhead _ hmem2
        simp only [jsSortLe, decide_eq_true_eq] at hle
        rw [← hq2]
        rcases hle with hlt | ⟨heq, -⟩
        · exact hlt.le
        · exact le_of_eq heq
    · intro j hj hkey
      have hpair : (j, l.get ⟨j, hj⟩) ∈ l.enum := enum_self_mem l j hj
      have hpair2 : (j, l.get ⟨j, hj⟩) ∈ q :: qrest := by
        have := List.mergeSort_perm l.enum (jsSortLe key)
        rw [hms] at this
        exact this.symm.mem_iff.mp hpair
      rcases List.mem_cons.mp hpair2 with heq | hmem2
      · have : j = q.1 := congrArg Prod.fst heq
        omega
      · have hle := hhead _ hmem2
        simp only [jsSortLe, decide_eq_true_eq] at hle
        rw [← hq2] at hkey
        rcases hle with hlt | ⟨-, hidx⟩
        · exact absurd hkey.symm (ne_of_lt hlt)
        · exact hidx

theorem counts_rep (sevs : List String) :
    jsGroupFold (fun s : String => s) (fun _ => (1 : ℕ)) (fun n _ => n + 1) sevs =
      (insKeys sevs).map (fun s => (s, sevs.count s)) := by
  rw [jsGroupFold_rep]
  have hmap : sevs.map (fun s : String => s) = sevs := by simp
  rw [hmap]
  apply List.map_congr_left
  intro s hs
  have hsl : s ∈ sevs := (mem_insKeys _ _).mp hs
  have hne : sevs.filter (fun a => decide ((fun s0 : String => s0) a = s)) ≠ [] := by
    intro hnil
    have := List.filter_eq_nil_iff.mp hnil s hsl
    simp at this
  rw [groupVal_count _ hne]
  have hβ : sevs.filter (fun a => decide ((fun s0 : String => s0) a = s)) =
      sevs.filter (fun a => decide (a = s)) := rfl
  rw [hβ, filter_eq_length_count]

/-- On a nonempty input, `getMostCommonSeverity` computes the statistical
mode with first-seen tie-break, and returns it unless that mode is the
empty string, in which case the `|| 'medium'` fallback returns `'medium'`
instead. -/
theorem getMostCommonSeverity_firstMode (sevs : List String) (h : sevs ≠ []) :
    ∃ m, isFirstMode sevs m ∧
      getMostCommonSeverity sevs = if m = "" then "medium" else m := by
  unfold getMostCommonSeverity
  rw [counts_rep]
  have hkeysne : insKeys sevs ≠ [] := by
    cases sevs with
    | nil => exact absurd rfl h
    | cons s t =>
      intro hnil
      have hmem : s ∈ insKeys (s :: t) :=
        (mem_insKeys _ _).mpr (List.mem_cons_self _ _)
      rw [hnil] at hmem
      exact List.not_mem_nil _ hmem
  have hclne : (insKeys sevs).map (fun s => (s, sevs.count s)) ≠ [] := by
    intro hnil
    exact hkeysne (List.map_eq_nil_iff.mp hnil)
  have hsne : jsStableSortBy (fun p : String × ℕ => -(p.2 : ℤ))
      ((insKeys sevs).map (fun s => (s, sevs.count s))) ≠ [] := by
    intro hnil
    have hlen := (jsStableSortBy_perm (fun p : String × ℕ => -(p.2 : ℤ))
      ((insKeys sevs).map (fun s => (s, sevs.count s)))).length_eq
    rw [hnil] at hlen
    exact hclne (List.eq_nil_of_length_eq_zero hlen.symm)
  obtain ⟨p0, rest, hsort⟩ : ∃ p0 rest,
      jsStableSortBy (fun p : String × ℕ => -(p.2 : ℤ))
        ((insKeys sevs).map (fun s => (s, sevs.count s))) = p0 :: rest := by
    cases hs : jsStableSortBy (fun p : String × ℕ => -(p.2 : ℤ))
        ((insKeys sevs).map (fun s => (s, sevs.count s))) with
    | nil => exact absurd hs hsne
    | cons a l2 => exact ⟨a, l2, rfl⟩
  rw [hsort]
  refine ⟨p0.1, ?_, rfl⟩
  obtain ⟨i, hi, hget, hmin, hstab⟩ := jsStableSortBy_head_min _ _ _ _ hsort
  have hilen : i < (insKeys sevs).length := by
    simpa using hi
  have hp0 : p0 = ((insKeys sevs).get ⟨i, hilen⟩,
      sevs.count ((insKeys sevs).get ⟨i, hilen⟩)) := by
    rw [← hget]
    exact List.getElem_map _
  subst hp0
  dsimp only at hmin hstab ⊢
  have hs0mem : (insKeys sevs).get ⟨i, hilen⟩ ∈ sevs :=
    (mem_insKeys _ _).mp (List.get_mem _ _ _)
  refine ⟨hs0mem, ?_, ?_⟩
  · intro s hs
    have hsk : s ∈ insKeys sevs := (mem_insKeys _ _).mpr hs
    have hpair : (s, sevs.count s) ∈ (insKeys sevs).map (fun s => (s, sevs.count s)) :=
      List.mem_map_of_mem _ hsk
    have hmle := hmin _ hpair
    dsimp only at hmle
    omega
  · intro s hs hcnt
    have hsk : s ∈ insKeys sevs := (mem_insKeys _ _).mpr hs
    have hjlen : (insKeys sevs).indexOf s < (insKeys sevs).length :=
      List.indexOf_lt_length.mpr hsk
    have hjcl : (insKeys sevs).indexOf s <
        ((insKeys sevs).map (fun s => (s, sevs.count s))).length := by
      simpa using hjlen
    have hgetfin : (insKeys sevs).get ⟨(insKeys sevs).indexOf s, hjlen⟩ = s :=
      List.getElem_indexOf hjlen
    have hgetj : ((insKeys sevs).map (fun s => (s, sevs.count s))).get
        ⟨(insKeys sevs).indexOf s, hjcl⟩ = (s, sevs.count s) := by
      have h1 : ((insKeys sevs).map (fun s => (s, sevs.count s))).get
          ⟨(insKeys sevs).indexOf s, hjcl⟩ =
          ((insKeys sevs).get ⟨(insKeys sevs).indexOf s, hjlen⟩,
            sevs.count ((insKeys sevs).get ⟨(insKeys sevs).indexOf s, hjlen⟩)) :=
        List.getElem_map _
      rw [h1, hgetfin]
    have hkeyj : -((((insKeys sevs).map (fun s => (s, sevs.count s))).get
        ⟨(insKeys sevs).indexOf s, hjcl⟩).2 : ℤ) =
        -((sevs.count ((insKeys sevs).get ⟨i, hilen⟩) : ℕ) : ℤ) := by
      rw [hgetj]
      dsimp only
      rw [hcnt]
    have hij : i ≤ (insKeys sevs).indexOf s := hstab _ hjcl hkeyj
    rcases Nat.lt_or_ge i ((insKeys sevs).indexOf s) with hlt | hge
    · have hpw := pairwise_indexOf_insKeys sevs
      rw [List.pairwise_iff_get] at hpw
      have hlt2 := hpw ⟨i, hilen⟩ ⟨(insKeys sevs).indexOf s, hjlen⟩ hlt
      rw [hgetfin] at hlt2
      exact hlt2.le
    · have hfin : (⟨i, hilen⟩ : Fin (insKeys sevs).length) =
          ⟨(insKeys sevs).indexOf s, hjlen⟩ := by
        simp only [Fin.mk.injEq]
        omega
      rw [hfin, hgetfin]

theorem rendered_rep (F : List Finding) :
    (jsGroupFold (fun f : Finding => normalizeKey f.title) clusterInit clusterUpd
        F).map renderVuln =
      (insKeys (F.map (fun f => normalizeKey f.title))).map
        (fun k => ⟨titleCase k, (clusterOf F k).length,
          getMostCommonSeverity ((clusterOf F k).map (fun f => f.severity))⟩) := by
  rw [jsGroupFold_rep, List.map_map]
  apply List.map_congr_left
  intro k hk
  have hkK : k ∈ F.map (fun f => normalizeKey f.title) := (mem_insKeys _ _).mp hk
  have hne : F.filter (fun f => normalizeKey f.title = k) ≠ [] :=
    filter_key_ne_nil _ F k hkK
  dsimp only [Function.comp_apply]
  rw [groupVal_cluster _ hne]
  rfl

/-- C8 (amended): vulnerability clustering groups the loaded findings by
the normalized title key (lowercase, each non-alphanumeric character
replaced by a space, trimmed); `topVulnerabilities` holds at most 10
entries, is ranked by non-increasing occurrence count, each entry shows the
title-cased key of a genuine cluster with its exact occurrence count and,
as `avgSeverity`, the statistical mode of the cluster's severities with the
first-seen severity winning ties — except that when that mode is the empty
string, the `|| 'medium'` fallback displays `'medium'` instead; and any
cluster left out has a count no larger than every shown entry. -/
theorem topVulnerabilities_spec (cache : String → Option ScanReport)
    (history : List HistoryEntry) :
    (calculateDetailedAnalytics cache history).topVulnerabilities.length ≤ 10 ∧
    (calculateDetailedAnalytics cache history).topVulnerabilities.Pairwise
      (fun a b => b.count ≤ a.count) ∧
    (∀ v ∈ (calculateDetailedAnalytics cache history).topVulnerabilities,
      ∃ k ∈ (loadedFindings cache history).map (fun f => normalizeKey f.title),
        v.title = titleCase k ∧
        v.count = (clusterOf (loadedFindings cache history) k).length ∧
        ∃ m, isFirstMode ((clusterOf (loadedFindings cache history) k).map
            (fun f => f.severity)) m ∧
          v.avgSeverity = (if m = "" then "medium" else m)) ∧
    (∀ k ∈ (loadedFindings cache history).map (fun f => normalizeKey f.title),
      (∃ v ∈ (calculateDetailedAnalytics cache history).topVulnerabilities,
        v.title = titleCase k) ∨
      (∀ v ∈ (calculateDetailedAnalytics cache history).topVulnerabilities,
        (clusterOf (loadedFindings cache history) k).length ≤ v.count)) := by
  rw [calculateDetailedAnalytics_eq]
  have htv : (detailedFromFindings (loadedFindings cache history)).topVulnerabilities =
      (jsStableSortBy (fun v : TopVuln => -(v.count : ℤ))
        ((insKeys ((loadedFindings cache history).map
            (fun f => normalizeKey f.title))).map
          (fun k => ⟨titleCase k, (clusterOf (loadedFindings cache history) k).length,
            getMostCommonSeverity ((clusterOf (loadedFindings cache history) k).map
              (fun f => f.severity))⟩))).take 10 := by
    unfold detailedFromFindings
    dsimp only
    rw [rendered_rep]
  rw [htv]
  have hperm := jsStableSortBy_perm (fun v : TopVuln => -(v.count : ℤ))
    ((insKeys ((loadedFindings cache history).map (fun f => normalizeKey f.title))).map
      (fun k => ⟨titleCase k, (clusterOf (loadedFindings cache history) k).length,
        getMostCommonSeverity ((clusterOf (loadedFindings cache history) k).map
          (fun f => f.severity))⟩))
  have hdesc : (jsStableSortBy (fun v : TopVuln => -(v.count : ℤ))
      ((insKeys ((loadedFindings cache history).map (fun f => normalizeKey f.title))).map
        (fun k => ⟨titleCase k, (clusterOf (loadedFindings cache history) k).length,
          getMostCommonSeverity ((clusterOf (loadedFindings cache history) k).map
            (fun f => f.severity))⟩))).Pairwise
      (fun a b : TopVuln => b.count ≤ a.count) :=
    (jsStableSortBy_pairwise_le (fun v : TopVuln => -(v.count : ℤ)) _).imp
      (fun hab => by omega)
  refine ⟨?_, ?_, ?_, ?_⟩
  · rw [List.length_take]
    omega
  · exact List.Pairwise.sublist (List.take_sublist _ _) hdesc
  · intro v hv
    have hvS := List.mem_of_mem_take hv
    have hvR := hperm.mem_iff.mp hvS
    obtain ⟨k, hk, rfl⟩ := List.mem_map.mp hvR
    have hkK : k ∈ (loadedFindings cache history).map (fun f => normalizeKey f.title) :=
      (mem_insKeys _ _).mp hk
    refine ⟨k, hkK, rfl, rfl, ?_⟩
    exact getMostCommonSeverity_firstMode
      ((clusterOf (loadedFindings cache history) k).map (fun f => f.severity))
      (fun hnil => filter_key_ne_nil (fun f : Finding => normalizeKey f.title) _ k hkK
        (List.map_eq_nil_iff.mp hnil))
  · intro k hk
    have hkI : k ∈ insKeys ((loadedFindings cache history).map
        (fun f => normalizeKey f.title)) := (mem_insKeys _ _).mpr hk
    have hbR : (⟨titleCase k, (clusterOf (loadedFindings cache history) k).length,
        getMostCommonSeverity ((clusterOf (loadedFindings cache history) k).map
          (fun f => f.severity))⟩ : TopVuln) ∈
        (insKeys ((loadedFindings cache history).map
          (fun f => normalizeKey f.title))).map
          (fun k => ⟨titleCase k, (clusterOf (loadedFindings cache history) k).length,
            getMostCommonSeverity ((clusterOf (loadedFindings cache history) k).map
              (fun f => f.severity))⟩) := List.mem_map_of_mem _ hkI
    have hbS := hperm.symm.mem_iff.mp hbR
    rw [← List.take_append_drop 10 (jsStableSortBy (fun v : TopVuln => -(v.count : ℤ))
      ((insKeys ((loadedFindings cache history).map (fun f => normalizeKey f.title))).map
        (fun k => ⟨titleCase k, (clusterOf (loadedFindings cache history) k).length,
          getMostCommonSeverity ((clusterOf (loadedFindings cache history) k).map
            (fun f => f.severity))⟩)))] at hbS
    rcases List.mem_append.mp hbS with htake | hdrop
    · exact Or.inl ⟨_, htake, rfl⟩
    · refine Or.inr ?_
      intro v hv
      have hpw := hdesc
      rw [← List.take_append_drop 10 (jsStableSortBy (fun v : TopVuln => -(v.count : ℤ))
        ((insKeys ((loadedFindings cache history).map
            (fun f => normalizeKey f.title))).map
          (fun k => ⟨titleCase k, (clusterOf (loadedFindings cache history) k).length,
            getMostCommonSeverity ((clusterOf (loadedFindings cache history) k).map
              (fun f => f.severity))⟩)))] at hpw
      have hcross := (List.pairwise_append.mp hpw).2.2
      exact hcross v hv _ hdrop

/-- C8 counterexample: on a single cached report whose only finding has the
empty-string severity, the cluster's observed severities are `[""]`, whose
statistical mode is `""`; but `sort(...)[0]?.[0] || 'medium'` treats the
winning empty-string key as falsy, so the rendered entry's `avgSeverity` is
`'medium'`, which is not a mode of the cluster (it does not even occur in
it) — refuting the claim that `avgSeverity` always equals the first-seen
mode. -/
theorem topVulnerabilities_empty_severity_cex :
    (calculateDetailedAnalytics
        (fun id => if id = "a" then some emptySevReport else none)
        [emptySevEntry]).topVulnerabilities = [⟨"X", 1, "medium"⟩] ∧
    (clusterOf (loadedFindings
        (fun id => if id = "a" then some emptySevReport else none)
        [emptySevEntry]) "x").map (fun f => f.severity) = [""] ∧
    ¬ isFirstMode [""] "medium" := by
  refine ⟨?_, rfl, fun hmode => absurd hmode.1 (by decide)⟩
  have h1 : (calculateDetailedAnalytics
      (fun id => if id = "a" then some emptySevReport else none)
      [emptySevEntry]).topVulnerabilities =
      (jsStableSortBy (fun v : TopVuln => -(v.count : ℤ))
        ([("x", (⟨1, [""]⟩ : ClusterAcc))].map renderVuln)).take 10 := rfl
  have h2 : getMostCommonSeverity [""] = "medium" := by
    unfold getMostCommonSeverity jsStableSortBy
    rw [show (jsGroupFold (fun s : String => s) (fun _ => (1 : ℕ)) (fun n _ => n + 1)
      [""]).enum = [(0, ("", 1))] from rfl]
    rw [List.mergeSort_singleton]
    rfl
  have hr : renderVuln ("x", (⟨1, [""]⟩ : ClusterAcc)) =
      (⟨"X", 1, "medium"⟩ : TopVuln) := by
    unfold renderVuln
    rw [h2]
    rfl
  have h3 : jsStableSortBy (fun v : TopVuln => -(v.count : ℤ))
      [(⟨"X", 1, "medium"⟩ : TopVuln)] = [⟨"X", 1, "medium"⟩] := by
    unfold jsStableSortBy
    rw [show ([(⟨"X", 1, "medium"⟩ : TopVuln)]).enum =
      [(0, (⟨"X", 1, "medium"⟩ : TopVuln))] from rfl]
    rw [List.mergeSort_singleton]
    rfl
  rw [h1, List.map_singleton, hr, h3]
  rfl

end SpoonAudit
